import Mathlib

/-!
Verification of the surreal-simple-querybuilder core against its
natural-language specification.  The definitions below are a shallow
embedding of the Rust sources:

* `src/src/foreign_key/loaded_value.rs`, `foreign_key.rs`, `into_key.rs`
  (tri-state foreign references and their serialization contract);
* `src/src/querybuilder.rs` (ordered-segment assembly and the
  placeholder-substitution pass of `build`);
* `src/src/types/pagination.rs`, `equal.rs`, `sql.rs` (clause injecters);
* `src/src/queries/impls.rs`, `mod.rs` (tuple / Vec / Option composition
  of injecters and the binding map);
* `src/src/model/origin_holder.rs`, `schema_field.rs` and the traversal
  methods emitted by `src/model-proc-macro/src/ast/field.rs` and by the
  declarative macro `src/src/model/macros.rs` (schema path algebra).

Strings manipulated by the substitution pass of `build` are modelled as
`List Char`; everything else uses `String` directly.
-/

/-! ## Foreign reference model (loaded_value.rs, foreign_key.rs, into_key.rs) -/

/-- Error type of the reduce-to-key operation, from `into_key.rs`
(`IntoKeyError`): `MissingId`, `TransformError`, `Custom(&'static str)`. -/
inductive IntoKeyError where
  | MissingId
  | TransformError
  | Custom (msg : String)
deriving DecidableEq

/-- A small JSON value grammar standing for `serde_json::Value`, the wire
form produced by serialization.  `Json.null` is the explicit absent/null
marker. -/
inductive Json where
  | null
  | str (s : String)
  | num (n : Int)
  | boolean (b : Bool)
  | arr (xs : List Json)
  | obj (fields : List (String × Json))

/-- The tri-state foreign value, from `loaded_value.rs`:
`Loaded(V) | Key(K) | Unloaded`. -/
inductive LoadedValue (V K : Type) where
  | Loaded (v : V)
  | Key (k : K)
  | Unloaded

/-- `LoadedValue::is_loaded`. -/
def LoadedValue.isLoaded : LoadedValue V K → Bool
  | .Loaded _ => true
  | _ => false

/-- `LoadedValue::is_key`. -/
def LoadedValue.isKey : LoadedValue V K → Bool
  | .Key _ => true
  | _ => false

/-- `LoadedValue::into_value`: consume, returning the value when loaded. -/
def LoadedValue.intoValue : LoadedValue V K → Option V
  | .Loaded v => some v
  | _ => none

/-- `LoadedValue::into_key`: consume, returning the key when in key state. -/
def LoadedValue.intoKey : LoadedValue V K → Option K
  | .Key k => some k
  | _ => none

/-- Serialization of a `LoadedValue` (`impl Serialize for LoadedValue`,
loaded_value.rs lines 175-190): `Loaded(v)` serializes `v`, `Key(i)`
serializes `i`, `Unloaded` serializes `Option::<K>::None`, i.e. null.
The caller-supplied `Serialize` impls of `V` and `K` are the parameters
`serV` and `serK`. -/
def loadedValueSerialize (serV : V → Json) (serK : K → Json) :
    LoadedValue V K → Json
  | .Loaded v => serV v
  | .Key k => serK k
  | .Unloaded => Json.null

/-- Serialization of a `ForeignKey` (`impl Serialize for ForeignKey`,
foreign_key.rs lines 254-275).  The match on
`(&self.inner, self.allow_value_serialize.get().unwrap_or(&false))`:
a loaded value with the flag unset is first reduced to a key with
`into_key` (errors become serialization errors); every other combination
delegates to the `LoadedValue` serialization.  `intoKeyF` is the
caller-supplied `IntoKey` impl. -/
def foreignKeySerialize (intoKeyF : V → Except IntoKeyError K)
    (serV : V → Json) (serK : K → Json)
    (inner : LoadedValue V K) (allowValueSer : Bool) :
    Except IntoKeyError Json :=
  match inner, allowValueSer with
  | .Loaded v, false => (intoKeyF v).map serK
  | inn, _ => .ok (loadedValueSerialize serV serK inn)

/-- The blanket `IntoKey` impl for `Option<V>` (into_key.rs lines 51-60):
`Some(id)` delegates to the inner impl, `None` fails with `MissingId`. -/
def optionIntoKey (f : V → Except IntoKeyError K) :
    Option V → Except IntoKeyError K
  | some v => f v
  | none => .error .MissingId

/-- `ForeignKey::take_value` (foreign_key.rs lines 171-177): when not
loaded return `None` leaving the state untouched; otherwise replace the
state with `Unloaded` and return the old value.  The pair is
(returned option, state left behind). -/
def takeValue (fk : LoadedValue V K) : Option V × LoadedValue V K :=
  if fk.isLoaded = false then (none, fk)
  else (fk.intoValue, LoadedValue.Unloaded)

/-- `ForeignKey::take_key` (foreign_key.rs lines 186-192): symmetric to
`take_value` for the `Key` state. -/
def takeKey (fk : LoadedValue V K) : Option K × LoadedValue V K :=
  if fk.isKey = false then (none, fk)
  else (fk.intoKey, LoadedValue.Unloaded)

/-! ## Query builder segments (querybuilder.rs) -/

/-- `QueryBuilder::add_segment` (querybuilder.rs lines 641-651): empty
segments are dropped at the moment they are added, otherwise the segment
is pushed at the end.  The builder is modelled by its segment list. -/
def addSegment (q : List String) (s : String) : List String :=
  if s = "" then q else q ++ [s]

/-- `QueryBuilder::add_segment_p`: prefix then segment. -/
def addSegmentP (q : List String) (pre s : String) : List String :=
  addSegment (addSegment q pre) s

/-- `QueryBuilder::limit`. -/
def qbLimit (q : List String) (l : String) : List String :=
  addSegmentP q "LIMIT" l

/-- `QueryBuilder::start_at`. -/
def qbStartAt (q : List String) (o : String) : List String :=
  addSegmentP q "START AT" o

/-- `QueryBuilder::if_then` (querybuilder.rs lines 501-510): apply the
action only when the condition holds. -/
def ifThen (q : List String) (condition : Bool)
    (action : List String → List String) : List String :=
  if condition then action q else q

/-- `Vec::join(" ")` as used by `QueryBuilder::build` (querybuilder.rs
line 689-691). -/
def spaceJoin : List String → String
  | [] => ""
  | [s] => s
  | s :: rest => s ++ " " ++ spaceJoin rest

/-- The segment-joining part of `QueryBuilder::build`, i.e. the query
string before the placeholder-substitution pass (which is modelled
separately on character lists below). -/
def buildSegments (q : List String) : String :=
  spaceJoin q

/-- Decimal rendering of an unsigned integer, standing for
`u64::to_string()`. -/
def natDisplay (n : Nat) : String :=
  Nat.repr n

/-- Size of the `u64` domain. -/
def u64size : Nat := 2 ^ 64

/-- Wrapping `u64` subtraction (release-mode semantics of
`self.0.end - self.0.start`); agrees with plain subtraction whenever
`b ≤ a < 2^64`. -/
def u64sub (a b : Nat) : Nat :=
  (a + u64size - b) % u64size

/-- `Pagination::inject` (pagination.rs lines 42-50): emit
`LIMIT (end - start)` and, through `if_then(start > 0, ..)`, a
`START AT start` clause only when the range starts after 0.  The range
`start..end` is passed as the two numbers. -/
def paginationInject (startN endN : Nat) (q : List String) : List String :=
  ifThen (qbLimit q (natDisplay (u64sub endN startN)))
    (decide (0 < startN))
    (fun qq => qbStartAt qq (natDisplay startN))

/-! ## Equal / Sql injecters and the binding map (equal.rs, sql.rs,
node_builder.rs, queries/mod.rs) -/

/-- `ToNodeBuilder::equals_parameterized` default impl (node_builder.rs
lines 70-72) used for plain string keys: the text `key = $key`. -/
def equalsParameterizedStr (key : String) : String :=
  key ++ " = $" ++ key

/-- `ToNodeBuilder::equals` (node_builder.rs lines 56-58): the text
`key = value` with the right side verbatim. -/
def equalsStr (key value : String) : String :=
  key ++ " = " ++ value

/-- The binding map output (`type BindingMap = HashMap<String, Value>`,
queries/mod.rs line 16), modelled as an association list whose lookup
finds the most recent insertion. -/
def BMap (V : Type) : Type := List (String × V)

/-- `HashMap::insert`: the new pair shadows any previous binding of the
same key. -/
def bmInsert (k : String) (v : V) (m : BMap V) : BMap V :=
  (k, v) :: m

/-- Lookup in the binding map. -/
def bmLookup (k : String) (m : BMap V) : Option V :=
  List.lookup k m

/-- Modelled from the spec: the `as_param` method of `ToNodeBuilder` is
called by `Equal::equal_params` (equal.rs line 66) but its definition is
absent from `src/node_builder.rs`.  The spec's contract for `Equal` is
that `key = $key` is emitted and `$key -> serialize(value)` is bound, so
for a plain key string `as_param` is the key itself. -/
def asParam (key : String) : String := key

/-- `Equal::equal_inject` (equal.rs lines 55-61): push the
`key = $key` segment. -/
def equalInject (q : List String) (key : String) : List String :=
  addSegment q (equalsParameterizedStr key)

/-- `Equal::equal_params` (equal.rs lines 63-69):
`map.insert(key.as_param(), ser_to_param_value(value)?)`.  The already
attempted serialization of the value is passed as an `Except`; on error
nothing is inserted and the error propagates (the `?`). -/
def equalParams (m : BMap V) (key : String) (serVal : Except E V) :
    BMap V × Option E :=
  match serVal with
  | .ok v => (bmInsert (asParam key) v m, none)
  | .error e => (m, some e)

/-- Inject of the `(&str, Sql<&str>)` impl (equal.rs lines 74-78):
`key = text` with the raw text verbatim. -/
def sqlTupleInject (q : List String) (key text : String) : List String :=
  addSegment q (equalsStr key text)

/-- Params of the `(&str, Sql<&str>)` impl (equal.rs lines 80-85):
no binding at all. -/
def sqlTupleParams (m : BMap V) : BMap V × Option E :=
  (m, none)

/-! ## Injecter composition (queries/impls.rs) -/

/-- A query fragment: the two-method `QueryBuilderInjecter` contract
(queries/mod.rs lines 18-29).  `inj` extends the builder's segments,
`par` contributes bindings, returning the updated map together with an
optional serialization error (Rust mutates the map in place and returns
`serde_json::Result<()>`; both effects are kept here). -/
structure Injecter (V E : Type) where
  inj : List String → List String
  par : BMap V → BMap V × Option E

/-- `Result::and` on `Result<(), E>` values whose side effects have
already been sequenced: the receiver's error, if any, wins. -/
def resAnd : Option E → Option E → Option E
  | some e, _ => some e
  | none, b => b

/-- Tuple-of-2 `inject` (impls.rs line 80-82):
`self.1.inject(self.0.inject(querybuilder))`. -/
def pairInject (i1 i2 : Injecter V E) (q : List String) : List String :=
  i2.inj (i1.inj q)

/-- Tuple-of-2 `params` (impls.rs line 88):
`self.1.params(map).and(self.0.params(map))` — the receiver
`self.1.params` runs first, then the argument `self.0.params`, and
`Result::and` keeps the receiver's error. -/
def pairParams (i1 i2 : Injecter V E) (m : BMap V) : BMap V × Option E :=
  let r2 := i2.par m
  let r1 := i1.par r2.1
  (r1.1, resAnd r2.2 r1.2)

/-- Tuple-of-3 `inject` (impls.rs line 98-100). -/
def tripleInject (i1 i2 i3 : Injecter V E) (q : List String) : List String :=
  i3.inj (i2.inj (i1.inj q))

/-- Tuple-of-3 `params` (impls.rs lines 106-110):
`self.2.params(map).and(self.1.params(map).and(self.0.params(map)))`. -/
def tripleParams (i1 i2 i3 : Injecter V E) (m : BMap V) :
    BMap V × Option E :=
  let r3 := i3.par m
  let r2 := i2.par r3.1
  let r1 := i1.par r2.1
  (r1.1, resAnd r3.2 (resAnd r2.2 r1.2))

/-- Tuple-of-4 `inject` (impls.rs lines 120-124). -/
def quadInject (i1 i2 i3 i4 : Injecter V E) (q : List String) :
    List String :=
  i4.inj (i3.inj (i2.inj (i1.inj q)))

/-- Tuple-of-4 `params` (impls.rs lines 130-135). -/
def quadParams (i1 i2 i3 i4 : Injecter V E) (m : BMap V) :
    BMap V × Option E :=
  let r4 := i4.par m
  let r3 := i3.par r4.1
  let r2 := i2.par r3.1
  let r1 := i1.par r2.1
  (r1.1, resAnd r4.2 (resAnd r3.2 (resAnd r2.2 r1.2)))

/-- `Vec<Injecters>` `inject` (impls.rs lines 55-61): a left-to-right
loop over the members. -/
def vecInject (is : List (Injecter V E)) (q : List String) : List String :=
  is.foldl (fun acc i => i.inj acc) q

/-- `Vec<Injecters>` `params` (impls.rs lines 63-72): a left-to-right
loop with `?`, stopping at the first error. -/
def vecParams : List (Injecter V E) → BMap V → BMap V × Option E
  | [], m => (m, none)
  | i :: rest, m =>
    match i.par m with
    | (m', none) => vecParams rest m'
    | (m', some e) => (m', some e)

/-- `Option<Injecters>` `inject` (impls.rs lines 32-37): `None` is a
no-op. -/
def optionInject (oi : Option (Injecter V E)) (q : List String) :
    List String :=
  match oi with
  | some i => i.inj q
  | none => q

/-- `Option<Injecters>` `params` (impls.rs lines 39-47). -/
def optionParams (oi : Option (Injecter V E)) (m : BMap V) :
    BMap V × Option E :=
  match oi with
  | some i => i.par m
  | none => (m, none)

/-- Written from the spec's words for comparison: compose a sequence of
fragments by folding `params` left-to-right and stopping at the first
error. -/
def specSeqParamsLTR : List (Injecter V E) → BMap V → BMap V × Option E
  | [], m => (m, none)
  | i :: rest, m =>
    match i.par m with
    | (m', none) => specSeqParamsLTR rest m'
    | (m', some e) => (m', some e)

/-- Generic sequential run of fragments' `params` in list order where
every member runs (no short-circuit) and the first error in run order is
reported; used to describe what the tuple impls actually compute. -/
def seqParamsAll : List (Injecter V E) → BMap V → BMap V × Option E
  | [], m => (m, none)
  | i :: rest, m =>
    let r := i.par m
    let rr := seqParamsAll rest r.1
    (rr.1, resAnd r.2 rr.2)

/-- A fragment behaving like the raw 2-tuple `(key, value)` of equal.rs:
injects `key = $key` and binds the key to the value. -/
def eqInjecter (k : String) (v : Nat) : Injecter Nat Unit :=
  ⟨fun q => equalInject q k, fun m => equalParams m k (.ok v)⟩

/-- A fragment whose value fails to serialize: `params` reports an error
and binds nothing. -/
def errInjecter (k : String) : Injecter Nat Unit :=
  ⟨fun q => equalInject q k, fun m => equalParams m k (.error ())⟩

/-! ## Schema path algebra (origin_holder.rs, schema_field.rs,
model-proc-macro field.rs, model/macros.rs) -/

/-- `impl Display for OriginHolder` (origin_holder.rs lines 9-23): write
each segment, inserting a single dot between consecutive segments
(nothing after the last one). -/
def originHolderDisplay : List String → String
  | [] => ""
  | [s] => s
  | s :: rest => s ++ "." ++ originHolderDisplay rest

/-- `impl Display for SchemaField` (schema_field.rs lines 40-47): the
origin holder's rendering immediately followed by the identifier (no
separator), or the identifier alone when there is no origin. -/
def schemaFieldDisplay (identifier : String) (origin : Option (List String)) :
    String :=
  match origin with
  | some segs => originHolderDisplay segs ++ identifier
  | none => identifier

/-- The conditional dot segment of the proc-macro foreign-node traversal
(field.rs lines 152-154): a "." segment is placed when the origin is
nonempty and does not already end in ".". -/
def hopDot (segs : List String) : String :=
  match segs.getLast? with
  | none => ""
  | some s => if s = "." then "" else "."

/-- Foreign-node traversal method emitted by the proc macro
(`FieldForeignNode::emit_foreign_field_function`, field.rs lines
142-161): copy the old origin segments, append the conditional dot slot
(possibly the empty string) and the field identifier. -/
def foreignNodeHop (segs : List String) (identifier : String) :
    List String :=
  segs ++ [hopDot segs, identifier]

/-- Relation traversal method emitted by the proc macro
(`FieldRelation::emit_foreign_field_function`, field.rs lines 213-230):
append the edge token and the relation's wire identifier. -/
def relationHop (segs : List String) (edge identifier : String) :
    List String :=
  segs ++ [edge, identifier]

/-- Foreign-field traversal of the declarative macro (`field!`,
model/macros.rs lines 78-87): append only the field identifier. -/
def fieldHop (segs : List String) (identifier : String) : List String :=
  segs ++ [identifier]

/-- Dots-to-underscores replacement used by
`SchemaField::equals_parameterized`; the pattern is the single character
"." so `str::replace(".", "_")` maps every dot to an underscore. -/
def dotsToUnderscores (s : String) : String :=
  String.mk (s.data.map (fun c => if c = '.' then '_' else c))

/-- `impl ToNodeBuilder for SchemaField`, `equals_parameterized`
(schema_field.rs lines 49-55): the field's rendering, then " = $", then
the rendering with every dot replaced by an underscore. -/
def schemaFieldEqualsParameterized (identifier : String)
    (origin : Option (List String)) : String :=
  let s := schemaFieldDisplay identifier origin
  s ++ " = $" ++ dotsToUnderscores s

/-- The four-hop traversal chain
`file.author().friends().author().friends()` of the claim, through
foreign-node fields using the proc-macro traversal, starting from the
root model (empty origin). -/
def fourHopChain : List String :=
  foreignNodeHop
    (foreignNodeHop
      (foreignNodeHop
        (foreignNodeHop [] "author") "friends") "author") "friends"

/-- The same four-hop chain using the declarative-macro traversal. -/
def fourHopChainDecl : List String :=
  fieldHop (fieldHop (fieldHop (fieldHop [] "author") "friends") "author")
    "friends"

/-! ## Placeholder substitution pass of build (querybuilder.rs lines
688-702), on character lists -/

/-- Whether the pattern is an initial run of the string. -/
def leadsWith : List Char → List Char → Bool
  | [], _ => true
  | _ :: _, [] => false
  | a :: as, b :: bs => a == b && leadsWith as bs

/-- `str::find`: index of the leftmost occurrence of the pattern. -/
def findSub (key : List Char) : List Char → Option Nat
  | [] => if leadsWith key [] then some 0 else none
  | c :: t =>
    if leadsWith key (c :: t) then some 0
    else (findSub key t).map (fun i => i + 1)

/-- One iteration of the substitution loop: find the leftmost occurrence
of the key and `replace_range` it with the value; `none` when the key no
longer occurs (the `while let` exits). -/
def replaceStep (key value s : List Char) : Option (List Char) :=
  match findSub key s with
  | none => none
  | some i => some (s.take i ++ value ++ s.drop (i + key.length))

/-- The substitution loop run for (at most) a given number of
iterations; once `replaceStep` returns `none` the state is stable. -/
def runLoop (key value : List Char) : Nat → List Char → List Char
  | 0, s => s
  | n + 1, s =>
    match replaceStep key value s with
    | none => s
    | some s' => runLoop key value n s'

/-- The `while let` loop of `build` terminates on this input: after some
number of iterations the key is no longer found. -/
def loopHalts (key value s : List Char) : Prop :=
  ∃ n, findSub key (runLoop key value n s) = none

/-- There is an occurrence of the key at position `j`. -/
def occAt (key s : List Char) (j : Nat) : Bool :=
  leadsWith key (s.drop j)

/-- The string contains the key as a contiguous substring. -/
def containsSub (key s : List Char) : Bool :=
  (findSub key s).isSome

/-- The set of occurrence positions of the key in the string. -/
def occSet (key s : List Char) : Finset Nat :=
  (Finset.range (s.length + 1)).filter (fun j => occAt key s j = true)

/-- Shape family A of the divergence counterexample:
b-run, then "aab", then a-run. -/
def shapeA (n m : Nat) : List Char :=
  List.replicate n 'b' ++ ['a', 'a', 'b'] ++ List.replicate m 'a'

/-- Shape family B of the divergence counterexample:
b-run, then "abb", then a-run. -/
def shapeB (n m : Nat) : List Char :=
  List.replicate n 'b' ++ ['a', 'b', 'b'] ++ List.replicate m 'a'

/-- States reached by the loop on the divergence counterexample. -/
def goodState (s : List Char) : Prop :=
  (∃ n m, s = shapeA n m) ∨ (∃ n m, s = shapeB n m)

/-! ## Helper lemmas -/

theorem toDigitsCore_len_ge (b : Nat) :
    ∀ (fuel n : Nat) (acc : List Char),
      acc.length ≤ (Nat.toDigitsCore b fuel n acc).length := by
  intro fuel
  induction fuel with
  | zero => intro n acc; simp [Nat.toDigitsCore]
  | succ f ih =>
    intro n acc
    simp only [Nat.toDigitsCore]
    by_cases h : n / b = 0
    · simp [h]
    · simp only [h, if_false]
      have := ih (n / b) (Nat.digitChar (n % b) :: acc)
      calc acc.length ≤ (Nat.digitChar (n % b) :: acc).length := by simp
        _ ≤ _ := this

theorem toDigitsCore_len_pos (b : Nat) (fuel n : Nat) (acc : List Char) :
    acc.length + 1 ≤ (Nat.toDigitsCore b (fuel + 1) n acc).length := by
  simp only [Nat.toDigitsCore]
  by_cases h : n / b = 0
  · simp [h]
  · simp only [h, if_false]
    have := toDigitsCore_len_ge b fuel (n / b) (Nat.digitChar (n % b) :: acc)
    simpa using this

theorem natDisplay_ne_empty (n : Nat) : natDisplay n ≠ "" := by
  unfold natDisplay Nat.repr
  intro h
  have h2 : (Nat.toDigits 10 n) = [] := by
    have := congrArg String.data h
    simpa [List.asString] using this
  unfold Nat.toDigits at h2
  have h3 := toDigitsCore_len_pos 10 n n []
  rw [h2] at h3
  simp at h3

theorem addSegment_ne (q : List String) (s : String) (h : s ≠ "") :
    addSegment q s = q ++ [s] := by
  simp [addSegment, h]

theorem append_str_ne_empty (a b c : String) (hb : b ≠ "") :
    a ++ b ++ c ≠ "" := by
  intro h
  have := congrArg String.length h
  simp [String.length_append] at this
  have hb2 : b.length = 0 := by omega
  exact hb (by
    cases b with
    | mk data =>
      cases data with
      | nil => rfl
      | cons c cs => simp [String.length, String.mk_length] at hb2)

theorem resAnd_none_right (a : Option E) : resAnd a none = a := by
  cases a <;> rfl

/-! ## Claim C1 -/

/-- C1: serializing a `ForeignKey` in state `Loaded(v)` without the
value-serialization flag emits exactly the serialization of the key
obtained from `v` by `into_key` (never the nested object); in state
`Key(k)` it emits exactly the serialization of `k`; in state `Unloaded`
it emits the explicit null marker; and with the flag set, `Loaded(v)`
serializes the full value. -/
theorem foreignkey_serialize_key_contract {V K : Type}
    (intoKeyF : V → Except IntoKeyError K) (serV : V → Json)
    (serK : K → Json) (v : V) (k : K) :
    foreignKeySerialize intoKeyF serV serK (.Loaded v) false =
      (intoKeyF v).map serK ∧
    (∀ b, foreignKeySerialize intoKeyF serV serK (.Key k) b =
      .ok (serK k)) ∧
    (∀ b, foreignKeySerialize intoKeyF serV serK .Unloaded b =
      .ok Json.null) ∧
    foreignKeySerialize intoKeyF serV serK (.Loaded v) true =
      .ok (serV v) := by
  refine ⟨rfl, ?_, ?_, rfl⟩ <;> intro b <;> cases b <;> rfl

/-! ## Claim C6 -/

/-- C6: when a `ForeignKey` is `Loaded(v)`, the flag is unset, and the
reduce-to-key operation fails, serialization returns a serialization
error carrying that failure instead of silently emitting a key. -/
theorem foreignkey_serialize_intokey_error {V K : Type}
    (intoKeyF : V → Except IntoKeyError K) (serV : V → Json)
    (serK : K → Json) (v : V) (e : IntoKeyError)
    (h : intoKeyF v = .error e) :
    foreignKeySerialize intoKeyF serV serK (.Loaded v) false =
      .error e := by
  simp [foreignKeySerialize, h, Except.map]

theorem foreignkey_serialize_intokey_error_witness :
    optionIntoKey (fun s : String => Except.ok s) none =
      Except.error IntoKeyError.MissingId ∧
    foreignKeySerialize (optionIntoKey (fun s : String => Except.ok s))
      (fun _ => Json.null) Json.str (.Loaded none) false =
      .error IntoKeyError.MissingId :=
  ⟨rfl, foreignkey_serialize_intokey_error _ _ _ _ _ rfl⟩

/-! ## Claim C8 -/

/-- C8: `take_value` returns `Some v` and leaves `Unloaded` exactly when
the state was `Loaded(v)`, otherwise it returns `None` with the state
unchanged; `take_key` behaves symmetrically for `Key(k)`. -/
theorem take_value_take_key_frame {V K : Type} (fk : LoadedValue V K) :
    (∀ v, fk = .Loaded v → takeValue fk = (some v, .Unloaded)) ∧
    ((∀ v, fk ≠ .Loaded v) → takeValue fk = (none, fk)) ∧
    (∀ k, fk = .Key k → takeKey fk = (some k, .Unloaded)) ∧
    ((∀ k, fk ≠ .Key k) → takeKey fk = (none, fk)) := by
  cases fk with
  | Loaded v =>
    refine ⟨?_, ?_, ?_, ?_⟩
    · intro v' h
      cases h
      simp [takeValue, LoadedValue.isLoaded, LoadedValue.intoValue]
    · intro h; exact absurd rfl (h v)
    · intro k h; cases h
    · intro _
      simp [takeKey, LoadedValue.isKey]
  | Key k =>
    refine ⟨?_, ?_, ?_, ?_⟩
    · intro v h; cases h
    · intro _
      simp [takeValue, LoadedValue.isLoaded]
    · intro k' h
      cases h
      simp [takeKey, LoadedValue.isKey, LoadedValue.intoKey]
    · intro h; exact absurd rfl (h k)
  | Unloaded =>
    refine ⟨?_, ?_, ?_, ?_⟩
    · intro v h; cases h
    · intro _
      simp [takeValue, LoadedValue.isLoaded]
    · intro k h; cases h
    · intro _
      simp [takeKey, LoadedValue.isKey]

theorem take_value_take_key_frame_witness :
    takeValue (LoadedValue.Loaded 5 : LoadedValue Nat Nat) =
      (some 5, LoadedValue.Unloaded) ∧
    takeValue (LoadedValue.Key 3 : LoadedValue Nat Nat) =
      (none, LoadedValue.Key 3) ∧
    takeKey (LoadedValue.Key 3 : LoadedValue Nat Nat) =
      (some 3, LoadedValue.Unloaded) ∧
    takeKey (LoadedValue.Loaded 5 : LoadedValue Nat Nat) =
      (none, LoadedValue.Loaded 5) :=
  ⟨(take_value_take_key_frame _).1 5 rfl,
   (take_value_take_key_frame _).2.1 (by intro v h; cases h),
   (take_value_take_key_frame _).2.2.1 3 rfl,
   (take_value_take_key_frame _).2.2.2 (by intro k h; cases h)⟩

/-! ## Claim C7 -/

/-- C7: the fragment `Equal((key, value))` (equivalently the raw 2-tuple)
injects the text `key = $key` and its params bind the key to the
serialized value; the fragment `(key, Sql(text))` injects `key = text`
verbatim and binds nothing. -/
theorem equal_and_sql_fragment_contract {V E : Type} (key text : String)
    (v : V) (q : List String) (m : BMap V) :
    equalInject q key = q ++ [key ++ " = $" ++ key] ∧
    equalParams m key (Except.ok v : Except E V) =
      (bmInsert key v m, none) ∧
    bmLookup key (bmInsert key v m) = some v ∧
    sqlTupleInject q key text = q ++ [key ++ " = " ++ text] ∧
    (sqlTupleParams m : BMap V × Option E) = (m, none) := by
  refine ⟨?_, rfl, ?_, ?_, rfl⟩
  · unfold equalInject equalsParameterizedStr
    exact addSegment_ne _ _ (append_str_ne_empty _ _ _ (by decide))
  · simp [bmLookup, bmInsert, List.lookup]
  · unfold sqlTupleInject equalsStr
    exact addSegment_ne _ _ (append_str_ne_empty _ _ _ (by decide))

/-! ## Claim C5 -/

theorem foldl_addSegment (xs : List String) :
    ∀ q : List String,
      xs.foldl addSegment q = q ++ xs.filter (fun s => !(s == "")) := by
  induction xs with
  | nil => intro q; simp
  | cons x xs ih =>
    intro q
    by_cases hx : x = ""
    · subst hx
      simp [addSegment, ih]
    · simp only [List.foldl_cons, List.filter_cons]
      rw [addSegment_ne _ _ hx, ih]
      simp [hx]

/-- C5: the string built from any sequence of added segments equals the
segments joined by single spaces in call order, every empty segment
being dropped silently at the moment it is added (contributing neither
text nor a separator). -/
theorem build_joins_nonempty_segments_with_spaces :
    (∀ xs : List String,
      buildSegments (xs.foldl addSegment []) =
        spaceJoin (xs.filter (fun s => !(s == "")))) ∧
    (∀ q : List String, addSegment q "" = q) := by
  constructor
  · intro xs
    rw [buildSegments, foldl_addSegment]
    simp
  · intro q
    simp [addSegment]

/-! ## Claim C9 -/

theorem dot_not_mem_dotsToUnderscores (l : List Char) :
    '.' ∉ l.map (fun c => if c = '.' then '_' else c) := by
  intro h
  simp only [List.mem_map] at h
  obtain ⟨c, _, heq⟩ := h
  by_cases hc : c = '.'
  · simp [hc] at heq
  · simp [hc] at heq

/-- C9: `SchemaField::equals_parameterized` renders the field path, then
" = $", then the path with every dot replaced by an underscore; when the
rendered path contains a dot the placeholder name therefore differs from
the path, and a root-level dot-free field renders exactly
`field = $field`. -/
theorem schema_field_equals_parameterized_contract :
    (∀ (identifier : String) (origin : Option (List String)),
      '.' ∈ (schemaFieldDisplay identifier origin).data →
        schemaFieldEqualsParameterized identifier origin =
          schemaFieldDisplay identifier origin ++ " = $" ++
            dotsToUnderscores (schemaFieldDisplay identifier origin) ∧
        dotsToUnderscores (schemaFieldDisplay identifier origin) ≠
          schemaFieldDisplay identifier origin) ∧
    (∀ f : String, '.' ∉ f.data →
      schemaFieldEqualsParameterized f none = f ++ " = $" ++ f) := by
  constructor
  · intro identifier origin h
    refine ⟨rfl, ?_⟩
    intro heq
    have hmem := h
    rw [← heq] at hmem
    exact dot_not_mem_dotsToUnderscores _ hmem
  · intro f hf
    have hmap : f.data.map (fun c => if c = '.' then '_' else c) = f.data := by
      have h1 : f.data.map (fun c => if c = '.' then '_' else c) =
          f.data.map id := by
        apply List.map_congr_left
        intro c hc
        simp only [id]
        exact if_neg (fun hcd : c = '.' => hf (hcd ▸ hc))
      rw [h1, List.map_id]
    have hs : dotsToUnderscores f = f := by
      unfold dotsToUnderscores
      rw [hmap]
    show schemaFieldDisplay f none ++ " = $" ++
        dotsToUnderscores (schemaFieldDisplay f none) = f ++ " = $" ++ f
    have hd : schemaFieldDisplay f none = f := rfl
    rw [hd, hs]

theorem schema_field_equals_parameterized_witness :
    ('.' ∈ (schemaFieldDisplay "name" (some ["author", ""])).data) ∧
    schemaFieldDisplay "name" (some ["author", ""]) = "author.name" ∧
    dotsToUnderscores (schemaFieldDisplay "name" (some ["author", ""])) ≠
      schemaFieldDisplay "name" (some ["author", ""]) ∧
    schemaFieldEqualsParameterized "name" (some ["author", ""]) =
      "author.name = $author_name" ∧
    schemaFieldEqualsParameterized "field" none = "field = $field" :=
  ⟨by decide, by decide,
   ((schema_field_equals_parameterized_contract).1 "name"
      (some ["author", ""]) (by decide)).2,
   (((schema_field_equals_parameterized_contract).1 "name"
      (some ["author", ""]) (by decide)).1).trans (by decide),
   (schema_field_equals_parameterized_contract).2 "field" (by decide)⟩

/-! ## Claim C3 -/

/-- C3 evaluation: in this source tree the origin segments produced by
the traversal methods, rendered by the `OriginHolder` and `SchemaField`
`Display` impls, do not reproduce the hand-written dotted path.  The
proc-macro traversal inserts explicit "." (and leading "") segments
while the `Display` impl of origin_holder.rs also inserts a dot between
every pair of segments, and the `Display` impl of schema_field.rs
appends the identifier with no separator; the repository's own doctests
(lib.rs lines 57-63) and tests (tests/src/querybuilder.rs line 189)
assert the dotted rendering the claim states. -/
theorem schema_path_rendering_bug_eval :
    fourHopChain = ["", "author", ".", "friends", ".", "author", ".",
      "friends"] ∧
    schemaFieldDisplay "name" (some fourHopChain) =
      ".author...friends...author...friendsname" ∧
    schemaFieldDisplay "name" (some fourHopChain) ≠
      "author.friends.author.friends.name" ∧
    fourHopChainDecl = ["author", "friends", "author", "friends"] ∧
    schemaFieldDisplay "name" (some fourHopChainDecl) =
      "author.friends.author.friendsname" ∧
    schemaFieldDisplay "name" (some fourHopChainDecl) ≠
      "author.friends.author.friends.name" ∧
    schemaFieldDisplay "handle" (some (foreignNodeHop [] "author")) =
      ".authorhandle" ∧
    schemaFieldDisplay "handle" (some (fieldHop [] "author")) =
      "authorhandle" := by
  refine ⟨by decide, by decide, by decide, by decide, by decide,
    by decide, by decide, by decide⟩

/-! ## Claim C2 -/

/-- C2 counterexample: for 2-tuples, `params` does not fold the members
left-to-right stopping at the first error.  With two fragments binding
the same key, the actual tuple `params` leaves the first member's value
in the map (it runs last) while the spec's left-to-right fold leaves the
second member's; and when the first member fails, the spec's fold binds
nothing while the actual tuple `params` still runs the second member. -/
theorem injecter_tuple_params_counterexample :
    bmLookup "k" (pairParams (eqInjecter "k" 1) (eqInjecter "k" 2) []).1 =
      some 1 ∧
    bmLookup "k"
      (specSeqParamsLTR [eqInjecter "k" 1, eqInjecter "k" 2] []).1 =
      some 2 ∧
    pairParams (eqInjecter "k" 1) (eqInjecter "k" 2) [] ≠
      specSeqParamsLTR [eqInjecter "k" 1, eqInjecter "k" 2] [] ∧
    (pairParams (errInjecter "e") (eqInjecter "t" 7) []).1 = [("t", 7)] ∧
    (specSeqParamsLTR [errInjecter "e", eqInjecter "t" 7] []).1 = [] := by
  refine ⟨rfl, rfl, ?_, rfl, rfl⟩
  intro h
  have h2 := congrArg (fun p => bmLookup "k" p.1) h
  simp [pairParams, specSeqParamsLTR, eqInjecter, equalParams, bmInsert,
    bmLookup, asParam, List.lookup, resAnd] at h2

/-- C2 amended: `inject` of the 2-, 3- and 4-tuples and of sequences
applies the members left-to-right, and a `Vec` of fragments folds
`params` left-to-right stopping at the first error; but the tuple
`params` impls run the members' contributions right-to-left (last member
first), run every member even when one fails, and report the rightmost
failing member's error; `Option` composes as a no-op when absent. -/
theorem injecter_composition_order :
    ∀ (V E : Type) (i1 i2 i3 i4 : Injecter V E) (q : List String)
      (is : List (Injecter V E)) (m : BMap V),
      pairInject i1 i2 q = vecInject [i1, i2] q ∧
      tripleInject i1 i2 i3 q = vecInject [i1, i2, i3] q ∧
      quadInject i1 i2 i3 i4 q = vecInject [i1, i2, i3, i4] q ∧
      vecParams is m = specSeqParamsLTR is m ∧
      pairParams i1 i2 m = seqParamsAll [i2, i1] m ∧
      tripleParams i1 i2 i3 m = seqParamsAll [i3, i2, i1] m ∧
      quadParams i1 i2 i3 i4 m = seqParamsAll [i4, i3, i2, i1] m ∧
      optionInject (none : Option (Injecter V E)) q = q ∧
      optionParams (none : Option (Injecter V E)) m = (m, none) := by
  intro V E i1 i2 i3 i4 q is m
  refine ⟨rfl, rfl, rfl, ?_, ?_, ?_, ?_, rfl, rfl⟩
  · induction is generalizing m with
    | nil => rfl
    | cons i rest ih =>
      simp only [vecParams, specSeqParamsLTR]
      rcases hp : i.par m with ⟨m', eo⟩
      cases eo <;> simp [ih]
  · simp [pairParams, seqParamsAll, resAnd_none_right]
  · simp [tripleParams, seqParamsAll, resAnd_none_right]
  · simp [quadParams, seqParamsAll, resAnd_none_right]

/-! ## Claim C4 -/

theorem addSegmentP_ne (q : List String) (p s : String) (hp : p ≠ "")
    (hs : s ≠ "") : addSegmentP q p s = q ++ [p, s] := by
  unfold addSegmentP
  rw [addSegment_ne q p hp, addSegment_ne (q ++ [p]) s hs,
    List.append_assoc]
  rfl

theorem ifThen_false (q : List String) (a : List String → List String) :
    ifThen q false a = q := rfl

theorem ifThen_true (q : List String) (a : List String → List String) :
    ifThen q true a = a q := rfl

theorem u64sub_of_le (s e : Nat) (hse : s ≤ e) (he : e < u64size) :
    u64sub e s = e - s := by
  unfold u64sub u64size at *
  omega

/-- C4: injecting `Pagination(start..end)` appends `LIMIT` followed by
`end - start`, and appends `START AT` followed by `start` exactly when
`start > 0`; when `start = 0` the `START AT` clause is entirely absent. -/
theorem pagination_inject_clauses (s e : Nat) (hse : s ≤ e)
    (he : e < u64size) (q : List String) :
    paginationInject s e q =
      q ++ "LIMIT" :: natDisplay (e - s) ::
        (if 0 < s then ["START AT", natDisplay s] else []) := by
  have hsub : u64sub e s = e - s := u64sub_of_le s e hse he
  unfold paginationInject qbLimit qbStartAt
  rw [hsub]
  rcases Nat.eq_zero_or_pos s with hs | hs
  · subst hs
    rw [show decide (0 < 0) = false from rfl, ifThen_false,
      addSegmentP_ne q _ _ (by decide) (natDisplay_ne_empty _)]
    simp
  · rw [decide_eq_true hs, ifThen_true,
      addSegmentP_ne q _ _ (by decide) (natDisplay_ne_empty _),
      addSegmentP_ne _ _ _ (by decide) (natDisplay_ne_empty _),
      List.append_assoc]
    simp [hs]

theorem pagination_inject_clauses_witness :
    paginationInject 10 35 [] = ["LIMIT", "25", "START AT", "10"] ∧
    buildSegments (paginationInject 10 35 []) = "LIMIT 25 START AT 10" ∧
    paginationInject 0 25 [] = ["LIMIT", "25"] ∧
    buildSegments (paginationInject 0 25 []) = "LIMIT 25" := by
  have h1 := pagination_inject_clauses 10 35 (by decide) (by decide) []
  have h2 := pagination_inject_clauses 0 25 (by decide) (by decide) []
  refine ⟨?_, ?_, ?_, ?_⟩
  · rw [h1]; decide
  · rw [h1]; decide
  · rw [h2]; decide
  · rw [h2]; decide

/-! ## Claim C10: substitution loop lemmas -/

theorem leadsWith_iff_take (key : List Char) :
    ∀ s : List Char, leadsWith key s = true ↔ s.take key.length = key := by
  induction key with
  | nil => intro s; simp [leadsWith]
  | cons a as ih =>
    intro s
    cases s with
    | nil => simp [leadsWith]
    | cons b bs =>
      simp only [leadsWith, List.length_cons, List.take_succ_cons,
        Bool.and_eq_true, beq_iff_eq, List.cons.injEq]
      constructor
      · rintro ⟨h1, h2⟩
        exact ⟨h1.symm, (ih bs).mp h2⟩
      · rintro ⟨h1, h2⟩
        exact ⟨h1.symm, (ih bs).mpr h2⟩

theorem occAt_bound (key s : List Char) (j : Nat) (hk : key ≠ [])
    (h : occAt key s j = true) : j + key.length ≤ s.length := by
  have ht := (leadsWith_iff_take key (s.drop j)).mp h
  have hlen := congrArg List.length ht
  simp only [List.length_take, List.length_drop] at hlen
  have hkpos : 0 < key.length := List.length_pos.mpr hk
  omega

theorem findSub_some (key : List Char) :
    ∀ (s : List Char) (i : Nat), findSub key s = some i →
      occAt key s i = true ∧ ∀ j, j < i → occAt key s j = false := by
  intro s
  induction s with
  | nil =>
    intro i h
    by_cases hl : leadsWith key [] = true
    · simp [findSub, hl] at h
      subst h
      exact ⟨hl, fun j hj => absurd hj (Nat.not_lt_zero j)⟩
    · simp [findSub, Bool.eq_false_iff.mpr hl] at h
  | cons c t ih =>
    intro i h
    by_cases hl : leadsWith key (c :: t) = true
    · simp [findSub, hl] at h
      subst h
      exact ⟨hl, fun j hj => absurd hj (Nat.not_lt_zero j)⟩
    · simp [findSub, Bool.eq_false_iff.mpr hl] at h
      obtain ⟨i', hi', hii⟩ := h
      subst hii
      obtain ⟨h1, h2⟩ := ih i' hi'
      refine ⟨h1, ?_⟩
      intro j hj
      cases j with
      | zero =>
        simpa [occAt] using Bool.eq_false_iff.mpr hl
      | succ j' =>
        have hj' : j' < i' := by omega
        simpa [occAt] using h2 j' hj'

theorem findSub_none_occ (key : List Char) :
    ∀ s : List Char, findSub key s = none →
      ∀ j, occAt key s j = false := by
  intro s
  induction s with
  | nil =>
    intro h j
    by_cases hl : leadsWith key [] = true
    · simp [findSub, hl] at h
    · simpa [occAt, List.drop_nil] using Bool.eq_false_iff.mpr hl
  | cons c t ih =>
    intro h j
    by_cases hl : leadsWith key (c :: t) = true
    · simp [findSub, hl] at h
    · simp [findSub, Bool.eq_false_iff.mpr hl] at h
      cases j with
      | zero => simpa [occAt] using Bool.eq_false_iff.mpr hl
      | succ j' => simpa [occAt] using ih h j'

theorem findSub_ne_none_of_occ (key s : List Char) (j : Nat)
    (h : occAt key s j = true) : findSub key s ≠ none := by
  intro hn
  have := findSub_none_occ key s hn j
  rw [h] at this
  cases this

theorem replaceStep_some_elim (key v s s' : List Char)
    (h : replaceStep key v s = some s') :
    ∃ i, findSub key s = some i ∧
      s' = s.take i ++ v ++ s.drop (i + key.length) := by
  unfold replaceStep at h
  cases hf : findSub key s with
  | none => rw [hf] at h; cases h
  | some i =>
    rw [hf] at h
    exact ⟨i, rfl, (Option.some.injEq _ _ ▸ h).symm⟩

theorem replaceStep_none_iff (key v s : List Char) :
    replaceStep key v s = none ↔ findSub key s = none := by
  unfold replaceStep
  cases hf : findSub key s <;> simp

theorem runLoop_succ_some (key v s s' : List Char) (n : Nat)
    (h : replaceStep key v s = some s') :
    runLoop key v (n + 1) s = runLoop key v n s' := by
  simp [runLoop, h]


theorem dropAppendGe (A X : List Char) (j : Nat) (h : A.length ≤ j) :
    (A ++ X).drop j = X.drop (j - A.length) := by
  have e : j = A.length + (j - A.length) := by omega
  conv_lhs => rw [e]
  rw [List.drop_append]

theorem occ_spliced_overlap_clash (key v s : List Char) (i j : Nat)
    (hk : key ≠ []) (hv : v ≠ [])
    (hdis : ∀ c ∈ v, c ∉ key)
    (hib : i + key.length ≤ s.length)
    (hocc : occAt key (s.take i ++ v ++ s.drop (i + key.length)) j = true)
    (hc1 : i < j + key.length) (hc2 : j < i + v.length) : False := by
  have hkpos : 0 < key.length := List.length_pos.mpr hk
  have hvpos : 0 < v.length := List.length_pos.mpr hv
  set s' := s.take i ++ v ++ s.drop (i + key.length) with hs'
  have lenA : (s.take i).length = i := by
    simp [List.length_take]
    omega
  have htake : (s'.drop j).take key.length = key :=
    (leadsWith_iff_take key _).mp hocc
  set p := max i j with hp
  have hpi : i ≤ p := le_max_left _ _
  have hpj : j ≤ p := le_max_right _ _
  have hpv : p < i + v.length := by
    rcases max_cases i j with ⟨h1, _⟩ | ⟨h1, _⟩ <;> omega
  have hpk : p < j + key.length := by
    rcases max_cases i j with ⟨h1, _⟩ | ⟨h1, _⟩ <;> omega
  have hlen' : s'.length = i + v.length + (s.length - (i + key.length)) := by
    rw [hs']
    simp [List.length_append, lenA]
    omega
  have hps' : p < s'.length := by omega
  have hpjlt : p - j < key.length := by omega
  have hpdlt : p - j < (s'.drop j).length := by
    simp [List.length_drop]
    omega
  have hkeyeq : key[p - j] = s'[p] := by
    have e1 := List.getElem_of_eq htake.symm hpjlt
    rw [e1, List.getElem_take, List.getElem_drop]
    have hidx : j + (p - j) = p := by omega
    simp only [hidx]
  have hpilt : p - i < v.length := by omega
  have hveq : s'[p] = v[p - i] := by
    have e0 := List.getElem_of_eq hs' hps'
    have hps2 : p <
        ((s.take i ++ v) ++ s.drop (i + key.length)).length := by
      simp only [List.length_append, lenA]
      omega
    have e1 := List.getElem_of_eq
      (List.append_assoc (s.take i) v (s.drop (i + key.length))) hps2
    rw [e0, e1, List.getElem_append_right (by rw [lenA]; omega :
      (List.take i s).length ≤ p)]
    simp only [lenA]
    rw [List.getElem_append_left hpilt]
  have hmemv : v[p - i] ∈ v := List.getElem_mem _
  have hmemk : key[p - j] ∈ key := List.getElem_mem _
  rw [hkeyeq, hveq] at hmemk
  exact hdis _ hmemv hmemk

theorem occ_spliced (key v s : List Char) (i j : Nat)
    (hk : key ≠ []) (hv : v ≠ [])
    (hdis : ∀ c ∈ v, c ∉ key)
    (hib : i + key.length ≤ s.length)
    (hleft : ∀ j', j' < i → occAt key s j' = false)
    (hocc : occAt key (s.take i ++ v ++ s.drop (i + key.length)) j = true) :
    i + v.length ≤ j ∧
      occAt key s (j + key.length - v.length) = true := by
  have hkpos : 0 < key.length := List.length_pos.mpr hk
  have hvpos : 0 < v.length := List.length_pos.mpr hv
  set s' := s.take i ++ v ++ s.drop (i + key.length) with hs'
  have lenA : (s.take i).length = i := by
    simp [List.length_take]
    omega
  have htake : (s'.drop j).take key.length = key :=
    (leadsWith_iff_take key _).mp hocc
  by_cases hc1 : j + key.length ≤ i
  · exfalso
    have b1 : j + key.length ≤ (s.take i ++ v).length := by
      simp [lenA]
      omega
    have b2 : j + key.length ≤ (s.take i).length := by
      rw [lenA]
      omega
    have e2 : s'.take (j + key.length) = s.take (j + key.length) := by
      rw [hs', List.take_append_of_le_length b1,
        List.take_append_of_le_length b2, List.take_take]
      congr 1
      omega
    have hstake : (s.drop j).take key.length = key := by
      rw [List.take_drop, ← e2, ← List.take_drop]
      exact htake
    have hocc2 : occAt key s j = true :=
      (leadsWith_iff_take key _).mpr hstake
    have hne := hleft j (by omega)
    rw [hocc2] at hne
    cases hne
  by_cases hc2 : j < i + v.length
  · exact absurd hocc (by
      intro hocc2
      exact occ_spliced_overlap_clash key v s i j hk hv hdis hib hocc2
        (by omega) hc2)
  · refine ⟨by omega, ?_⟩
    have hlen2 : (s.take i ++ v).length = i + v.length := by simp [lenA]
    have hdj : s'.drop j = s.drop (j + key.length - v.length) := by
      rw [hs', dropAppendGe (s.take i ++ v) _ j (by rw [hlen2]; omega),
        hlen2, List.drop_drop]
      congr 1
      omega
    show occAt key s (j + key.length - v.length) = true
    unfold occAt
    rw [← hdj]
    exact hocc

theorem occSet_card_lt (key v s s' : List Char)
    (hk : key ≠ []) (hv : v ≠ []) (hdis : ∀ c ∈ v, c ∉ key)
    (hstep : replaceStep key v s = some s') :
    (occSet key s').card < (occSet key s).card := by
  obtain ⟨i, hf, hsp⟩ := replaceStep_some_elim key v s s' hstep
  obtain ⟨hocci, hleft⟩ := findSub_some key s i hf
  have hib : i + key.length ≤ s.length := occAt_bound key s i hk hocci
  have hkpos : 0 < key.length := List.length_pos.mpr hk
  have hvpos : 0 < v.length := List.length_pos.mpr hv
  have hclass : ∀ j, j ∈ occSet key s' →
      i + v.length ≤ j ∧ occAt key s (j + key.length - v.length) = true := by
    intro j hj
    rw [occSet, Finset.mem_filter] at hj
    exact occ_spliced key v s i j hk hv hdis hib hleft (hsp ▸ hj.2)
  have hmaps : ∀ j ∈ occSet key s',
      (fun j => j + key.length - v.length) j ∈ (occSet key s).erase i := by
    intro j hj
    obtain ⟨hge, hocc2⟩ := hclass j hj
    show j + key.length - v.length ∈ (occSet key s).erase i
    rw [Finset.mem_erase]
    refine ⟨by omega, ?_⟩
    rw [occSet, Finset.mem_filter, Finset.mem_range]
    refine ⟨?_, hocc2⟩
    have := occAt_bound key s _ hk hocc2
    omega
  have hinj : Set.InjOn (fun j => j + key.length - v.length)
      (occSet key s' : Set Nat) := by
    intro j1 h1 j2 h2 heq
    have hg1 := (hclass j1 h1).1
    have hg2 := (hclass j2 h2).1
    simp only at heq
    omega
  have hle := Finset.card_le_card_of_injOn
    (fun j => j + key.length - v.length) hmaps hinj
  have hii : i ∈ occSet key s := by
    rw [occSet, Finset.mem_filter, Finset.mem_range]
    exact ⟨by omega, hocci⟩
  have hpos : 0 < (occSet key s).card := Finset.card_pos.mpr ⟨i, hii⟩
  rw [Finset.card_erase_of_mem hii] at hle
  omega

theorem replaceStep_len_lt (key s s' : List Char) (hk : key ≠ [])
    (hstep : replaceStep key [] s = some s') : s'.length < s.length := by
  obtain ⟨i, hf, hsp⟩ := replaceStep_some_elim key [] s s' hstep
  obtain ⟨hocci, _⟩ := findSub_some key s i hf
  have hib : i + key.length ≤ s.length := occAt_bound key s i hk hocci
  have hkpos : 0 < key.length := List.length_pos.mpr hk
  subst hsp
  simp only [List.length_append, List.length_take, List.length_drop,
    List.length_nil]
  omega

theorem haltsLen (key : List Char) (hk : key ≠ []) :
    ∀ (N : Nat) (s : List Char), s.length ≤ N →
      ∃ n, findSub key (runLoop key [] n s) = none := by
  intro N
  induction N with
  | zero =>
    intro s hlen
    cases hstep : replaceStep key [] s with
    | none =>
      exact ⟨0, by simpa [runLoop] using
        (replaceStep_none_iff key [] s).mp hstep⟩
    | some s' =>
      exfalso
      have := replaceStep_len_lt key s s' hk hstep
      omega
  | succ N ih =>
    intro s hlen
    cases hstep : replaceStep key [] s with
    | none =>
      exact ⟨0, by simpa [runLoop] using
        (replaceStep_none_iff key [] s).mp hstep⟩
    | some s' =>
      have hlt := replaceStep_len_lt key s s' hk hstep
      obtain ⟨n, hn⟩ := ih s' (by omega)
      exact ⟨n + 1, by rw [runLoop_succ_some key [] s s' n hstep]; exact hn⟩

theorem haltsCount (key v : List Char) (hk : key ≠ []) (hv : v ≠ [])
    (hdis : ∀ c ∈ v, c ∉ key) :
    ∀ (N : Nat) (s : List Char), (occSet key s).card ≤ N →
      ∃ n, findSub key (runLoop key v n s) = none := by
  intro N
  induction N with
  | zero =>
    intro s hcard
    cases hstep : replaceStep key v s with
    | none =>
      exact ⟨0, by simpa [runLoop] using
        (replaceStep_none_iff key v s).mp hstep⟩
    | some s' =>
      exfalso
      have := occSet_card_lt key v s s' hk hv hdis hstep
      omega
  | succ N ih =>
    intro s hcard
    cases hstep : replaceStep key v s with
    | none =>
      exact ⟨0, by simpa [runLoop] using
        (replaceStep_none_iff key v s).mp hstep⟩
    | some s' =>
      have hlt := occSet_card_lt key v s s' hk hv hdis hstep
      obtain ⟨n, hn⟩ := ih s' (by omega)
      exact ⟨n + 1, by rw [runLoop_succ_some key v s s' n hstep]; exact hn⟩

theorem findSub_nil_key (s : List Char) : findSub [] s = some 0 := by
  cases s <;> simp [findSub, leadsWith]

theorem drop_append_le (l1 l2 : List Char) (n : Nat) (h : n ≤ l1.length) :
    (l1 ++ l2).drop n = l1.drop n ++ l2 := by
  induction l1 generalizing n with
  | nil =>
    simp at h
    subst h
    simp
  | cons c t ih =>
    cases n with
    | zero => simp
    | succ n' =>
      simp only [List.cons_append, List.drop_succ_cons]
      exact ih n' (by simpa using h)

theorem contains_preserved (key v : List Char) (hk : key ≠ [])
    (hvc : containsSub key v = true) :
    ∀ (n : Nat) (s : List Char), containsSub key s = true →
      containsSub key (runLoop key v n s) = true := by
  have hkpos : 0 < key.length := List.length_pos.mpr hk
  obtain ⟨j0, hj0⟩ : ∃ j0, findSub key v = some j0 := by
    rw [containsSub, Option.isSome_iff_exists] at hvc
    exact hvc
  obtain ⟨hoccv, _⟩ := findSub_some key v j0 hj0
  have hj0b : j0 + key.length ≤ v.length := occAt_bound key v j0 hk hoccv
  intro n
  induction n with
  | zero => intro s hs; simpa [runLoop] using hs
  | succ n ih =>
    intro s hs
    obtain ⟨i, hf⟩ : ∃ i, findSub key s = some i := by
      rw [containsSub, Option.isSome_iff_exists] at hs
      exact hs
    obtain ⟨hocci, _⟩ := findSub_some key s i hf
    have hib : i + key.length ≤ s.length := occAt_bound key s i hk hocci
    have lenA : (s.take i).length = i := by
      simp [List.length_take]
      omega
    set s' := s.take i ++ v ++ s.drop (i + key.length) with hs'
    have hstep : replaceStep key v s = some s' := by
      unfold replaceStep
      rw [hf]
    rw [runLoop_succ_some key v s s' n hstep]
    apply ih
    have hocc' : occAt key s' (i + j0) = true := by
      unfold occAt
      have e0 : s'.drop (i + j0) =
          v.drop j0 ++ s.drop (i + key.length) := by
        rw [hs', List.append_assoc,
          dropAppendGe (s.take i) _ (i + j0) (by rw [lenA]; omega), lenA]
        have e1 : i + j0 - i = j0 := by omega
        rw [e1, drop_append_le v _ j0 (by omega)]
      rw [e0]
      rw [leadsWith_iff_take]
      rw [List.take_append_of_le_length (by simp [List.length_drop]; omega)]
      have := (leadsWith_iff_take key (v.drop j0)).mp hoccv
      exact this
    rw [containsSub, Option.isSome_iff_ne_none]
    exact findSub_ne_none_of_occ key s' (i + j0) hocc'

theorem substitution_never_halts (key v s : List Char)
    (hvc : containsSub key v = true) (hs : containsSub key s = true) :
    ¬ loopHalts key v s := by
  by_cases hk : key = []
  · subst hk
    rintro ⟨n, hn⟩
    rw [findSub_nil_key] at hn
    cases hn
  · rintro ⟨n, hn⟩
    have := contains_preserved key v hk hvc n s hs
    rw [containsSub, hn] at this
    cases this

/-! ## Claim C10: amended theorem -/

/-- C10 amended: the per-key find-and-replace loop of `build` terminates
and removes every occurrence of the key provided the key is nonempty and
the replacement value contains no character occurring in the key (the
claim's weaker precondition, that the value does not contain the key as
a substring, is not sufficient); and whenever the replacement value does
contain the key as a substring and the key occurs in the string, the
loop never terminates. -/
theorem build_substitution_loop_amended :
    (∀ key value s : List Char, key ≠ [] → (∀ c ∈ value, c ∉ key) →
      ∃ n, findSub key (runLoop key value n s) = none ∧
        ∀ j, occAt key (runLoop key value n s) j = false) ∧
    (∀ key value s : List Char, containsSub key value = true →
      containsSub key s = true → ¬ loopHalts key value s) := by
  constructor
  · intro key value s hk hdis
    rcases eq_or_ne value [] with hv | hv
    · subst hv
      obtain ⟨n, hn⟩ := haltsLen key hk s.length s le_rfl
      exact ⟨n, hn, findSub_none_occ key _ hn⟩
    · obtain ⟨n, hn⟩ :=
        haltsCount key value hk hv hdis (occSet key s).card s le_rfl
      exact ⟨n, hn, findSub_none_occ key _ hn⟩
  · intro key value s hvc hs
    exact substitution_never_halts key value s hvc hs

theorem build_substitution_loop_amended_witness :
    (∃ n, findSub ['a'] (runLoop ['a'] ['b'] n ['c', 'a', 'a']) = none ∧
      ∀ j, occAt ['a'] (runLoop ['a'] ['b'] n ['c', 'a', 'a']) j = false) ∧
    ¬ loopHalts ['a', 'b'] ['x', 'a', 'b'] ['c', 'a', 'b'] :=
  ⟨build_substitution_loop_amended.1 ['a'] ['b'] ['c', 'a', 'a']
    (by decide) (by decide),
   build_substitution_loop_amended.2 ['a', 'b'] ['x', 'a', 'b']
    ['c', 'a', 'b'] (by decide) (by decide)⟩

/-! ## Claim C10: divergence counterexample -/

theorem replaceStep_cons (key v : List Char) (c : Char) (s : List Char)
    (h : leadsWith key (c :: s) = false) :
    replaceStep key v (c :: s) =
      (replaceStep key v s).map (fun t => c :: t) := by
  unfold replaceStep
  have hfind : findSub key (c :: s) =
      (findSub key s).map (fun i => i + 1) := by
    simp [findSub, h]
  rw [hfind]
  cases hf : findSub key s with
  | none => simp
  | some i =>
    simp only [Option.map_some', Option.some.injEq]
    rw [List.take_succ_cons]
    have e : i + 1 + key.length = (i + key.length) + 1 := by omega
    rw [e, List.drop_succ_cons]
    simp

theorem leadsWith_ab_bcons (s : List Char) :
    leadsWith ['a', 'b'] ('b' :: s) = false := by
  show (('a' == 'b') && leadsWith ['b'] s) = false
  rw [show (('a' == 'b') : Bool) = false from rfl]
  exact Bool.false_and _

theorem leadsWith_ab_aacons (s : List Char) :
    leadsWith ['a', 'b'] ('a' :: 'a' :: s) = false := by
  show (('a' == 'a') && (('b' == 'a') && leadsWith [] s)) = false
  rw [show (('b' == 'a') : Bool) = false from rfl]
  simp

theorem replaceStep_ab_head (v t : List Char) :
    replaceStep ['a', 'b'] v ('a' :: 'b' :: t) = some (v ++ t) := by
  unfold replaceStep
  have hfind : findSub ['a', 'b'] ('a' :: 'b' :: t) = some 0 := by
    simp [findSub, leadsWith]
  rw [hfind]
  simp

theorem stepShapeA (n m : Nat) :
    replaceStep ['a', 'b'] ['b', 'b', 'a', 'a'] (shapeA n m) =
      some (shapeB n (m + 2)) := by
  induction n with
  | zero =>
    show replaceStep ['a', 'b'] ['b', 'b', 'a', 'a']
        ('a' :: 'a' :: 'b' :: List.replicate m 'a') = _
    rw [replaceStep_cons _ _ 'a' _ (leadsWith_ab_aacons _),
      replaceStep_ab_head]
    show some ('a' :: ('b' :: 'b' :: 'a' :: 'a' :: List.replicate m 'a')) = _
    unfold shapeB
    simp [List.replicate_succ]
  | succ n ih =>
    show replaceStep ['a', 'b'] ['b', 'b', 'a', 'a']
        ('b' :: shapeA n m) = some (shapeB (n + 1) (m + 2))
    rw [replaceStep_cons _ _ 'b' _ (leadsWith_ab_bcons _), ih]
    show some ('b' :: shapeB n (m + 2)) = _
    unfold shapeB
    simp [List.replicate_succ]

theorem stepShapeB (n m : Nat) :
    replaceStep ['a', 'b'] ['b', 'b', 'a', 'a'] (shapeB n m) =
      some (shapeA (n + 2) m) := by
  induction n with
  | zero =>
    show replaceStep ['a', 'b'] ['b', 'b', 'a', 'a']
        ('a' :: 'b' :: 'b' :: List.replicate m 'a') = _
    rw [replaceStep_ab_head]
    show some ('b' :: 'b' :: 'a' :: 'a' :: 'b' :: List.replicate m 'a') = _
    unfold shapeA
    simp [List.replicate_succ]
  | succ n ih =>
    show replaceStep ['a', 'b'] ['b', 'b', 'a', 'a']
        ('b' :: shapeB n m) = some (shapeA (n + 1 + 2) m)
    rw [replaceStep_cons _ _ 'b' _ (leadsWith_ab_bcons _), ih]
    show some ('b' :: shapeA (n + 2) m) = _
    unfold shapeA
    simp [List.replicate_succ]

theorem goodState_step (s : List Char) (h : goodState s) :
    ∃ s', replaceStep ['a', 'b'] ['b', 'b', 'a', 'a'] s = some s' ∧
      goodState s' := by
  rcases h with ⟨n, m, rfl⟩ | ⟨n, m, rfl⟩
  · exact ⟨shapeB n (m + 2), stepShapeA n m, Or.inr ⟨n, m + 2, rfl⟩⟩
  · exact ⟨shapeA (n + 2) m, stepShapeB n m, Or.inl ⟨n + 2, m, rfl⟩⟩

theorem goodState_never_halts :
    ∀ (k : Nat) (s : List Char), goodState s →
      findSub ['a', 'b']
        (runLoop ['a', 'b'] ['b', 'b', 'a', 'a'] k s) ≠ none := by
  intro k
  induction k with
  | zero =>
    intro s hgood hn
    obtain ⟨s', hstep, _⟩ := goodState_step s hgood
    rw [show runLoop ['a', 'b'] ['b', 'b', 'a', 'a'] 0 s = s from rfl] at hn
    rw [(replaceStep_none_iff _ _ _).mpr hn] at hstep
    cases hstep
  | succ k ih =>
    intro s hgood
    obtain ⟨s', hstep, hgood'⟩ := goodState_step s hgood
    rw [runLoop_succ_some _ _ _ _ _ hstep]
    exact ih s' hgood'

/-- C10 counterexample: with key "ab" and replacement value "bbaa" the
precondition of the claim holds (the value does not contain the key as a
substring), yet the substitution loop run on the segment "abb" never
terminates: every iterate still contains the key. -/
theorem build_substitution_loop_counterexample :
    containsSub ['a', 'b'] ['b', 'b', 'a', 'a'] = false ∧
    ¬ loopHalts ['a', 'b'] ['b', 'b', 'a', 'a'] ['a', 'b', 'b'] := by
  refine ⟨by decide, ?_⟩
  rintro ⟨n, hn⟩
  have hgood : goodState ['a', 'b', 'b'] := by
    right
    exact ⟨0, 0, by simp [shapeB]⟩
  exact goodState_never_halts n ['a', 'b', 'b'] hgood hn
